import Mathlib

/-!
Verification of `convert_to_junit_xml.py`.

The script is a two-stage pipeline: `parse_simulation_results` reads an XML
file with `ElementTree`, collects the `testcase` elements that are direct
children of the root, and normalises each into a `(name, architecture,
status)` triple; `create_junit_xml` groups the triples by architecture into
a `testsuites`/`testsuite`/`testcase` tree and serialises it with an XML
declaration.  The embedding below mirrors the script function by function;
file-system effects (opening the input, writing the output) are modelled by
explicit outcome values, since the script reacts to them only through the
exceptions they raise.
-/

namespace ConvertToJunitXml

/-- An XML element as `xml.etree.ElementTree` presents it to the script:
a tag, an ordered attribute list, and a list of child elements.  None of the
elements the script builds or reads carry text, so text is omitted. -/
inductive Element where
  | mk (tag : String) (attrs : List (String × String)) (children : List Element)

def Element.tag : Element → String
  | .mk t _ _ => t

def Element.attrs : Element → List (String × String)
  | .mk _ a _ => a

def Element.children : Element → List Element
  | .mk _ _ c => c

/-- `element.get(key)`: the attribute value, or `None` when absent. -/
def Element.get (e : Element) (key : String) : Option String :=
  (e.attrs.find? (fun p => p.1 == key)).map (fun p => p.2)

/-- `root.findall(tag)`: the direct children of `root` whose tag matches
(`ElementTree` resolves a plain tag path against immediate children only). -/
def findall (tag : String) (root : Element) : List Element :=
  root.children.filter (fun e => e.tag == tag)

mutual
/-- Number of elements with the given tag anywhere in the tree, the element
itself included.  The script does not compute this; it is the "testcase
elements found anywhere in the tree" reading of the spec, kept for
comparison with `findall`. -/
def countTag (tag : String) : Element → Nat
  | .mk t _ children => (if t == tag then 1 else 0) + countTagList tag children

def countTagList (tag : String) : List Element → Nat
  | [] => 0
  | e :: es => countTag tag e + countTagList tag es
end

/-! ### `extract_architecture`

`re.search(r'OF\s+(\w+)\s+IS', test_name, re.IGNORECASE)`, group 1 on a
match, `'unknown'` otherwise.  The regex alternates disjoint character
classes (`\s` and `\w` share no character, and the literal letters are word
characters), so the backtracking search is equivalent to the leftmost
maximal-munch matcher written out below.  Character classes are modelled on
their ASCII fragment. -/

/-- Python `\w` (ASCII fragment): letters, digits, underscore. -/
def isWordChar (c : Char) : Bool :=
  c.isAlphanum || c == '_'

/-- Python `\s` (ASCII fragment). -/
def isSpaceChar (c : Char) : Bool :=
  c == ' ' || c == '\t' || c == '\n' || c == '\r' || c == '\x0b' || c == '\x0c'

/-- Attempt to match `OF\s+(\w+)\s+IS` (case-insensitively) starting exactly
at the head of `cs`; on success return the characters captured by `(\w+)`. -/
def matchAt : List Char → Option (List Char)
  | o :: f :: rest =>
    if (o == 'O' || o == 'o') && (f == 'F' || f == 'f') then
      if (rest.takeWhile isSpaceChar).isEmpty then none else
      if ((rest.dropWhile isSpaceChar).takeWhile isWordChar).isEmpty then none else
      if (((rest.dropWhile isSpaceChar).dropWhile isWordChar).takeWhile
          isSpaceChar).isEmpty then none else
      match ((rest.dropWhile isSpaceChar).dropWhile isWordChar).dropWhile isSpaceChar with
      | i :: s :: _ =>
        if (i == 'I' || i == 'i') && (s == 'S' || s == 's') then
          some ((rest.dropWhile isSpaceChar).takeWhile isWordChar)
        else none
      | _ => none
    else none
  | _ => none

/-- `re.search`: try every start position from the left, first hit wins. -/
def searchOFIS : List Char → Option (List Char)
  | [] => none
  | c :: rest =>
    match matchAt (c :: rest) with
    | some ident => some ident
    | none => searchOFIS rest

/-- `extract_architecture(test_name)` for a string argument. -/
def extract_architecture (test_name : String) : String :=
  match searchOFIS test_name.data with
  | some ident => ⟨ident⟩
  | none => "unknown"

/-! ### `parse_simulation_results` -/

/-- One entry of the `test_results` list: `(test_name, architecture, status)`
with `status` already normalised to `'passed'`/`'failed'`/`'skipped'`. -/
def TestResult := String × String × String
deriving DecidableEq, Repr

def TestResult.name (r : TestResult) : String := r.1
def TestResult.group (r : TestResult) : String := r.2.1
def TestResult.status (r : TestResult) : String := r.2.2

/-- The loop body for one `testcase` element.  `testcase.get('name')` may be
`None`; in that case `re.search` inside `extract_architecture` raises
`TypeError`, which is the only exception the body can raise — modelled as
`none`.  Otherwise the body reads `status` with default `'FAILED'`,
normalises it, and yields the triple that is appended. -/
def processTestcase (e : Element) : Option TestResult :=
  match e.get "name" with
  | none => none
  | some test_name =>
    let status0 := (e.get "status").getD "FAILED"
    let architecture := extract_architecture test_name
    let status :=
      if status0 == "PASSED" then "passed"
      else if status0 == "SKIPPED" then "skipped"
      else "failed"
    some (test_name, architecture, status)

/-- The `for testcase in root.findall('testcase')` loop.  Returns the
accumulated results and whether an exception escaped the loop (it is caught
by the surrounding `try`, so the results built before it are kept). -/
def parseTestcases : List Element → List TestResult × Bool
  | [] => ([], false)
  | e :: rest =>
    match processTestcase e with
    | none => ([], true)
    | some r =>
      let p := parseTestcases rest
      (r :: p.1, p.2)

/-- What `ET.parse(xml_file_path)` does: raise `FileNotFoundError` when the
path does not exist, raise `ParseError` when the file is not parseable XML,
or return a tree with a root element.  The carried string is the
exception's message text interpolated into the printed error line. -/
inductive ParseOutcome where
  | notFound (msg : String)
  | malformed (msg : String)
  | ok (root : Element)

/-- `parse_simulation_results`: the returned `test_results` list together
with the lines printed to stdout.  Every exception — missing file,
unparseable XML, or the `TypeError` from a nameless `testcase` — lands in
the same `except Exception` block, which prints and falls through to
`return test_results`. -/
def parse_simulation_results (input : ParseOutcome) : List TestResult × List String :=
  match input with
  | .notFound msg => ([], ["Error parsing XML file: " ++ msg])
  | .malformed msg => ([], ["Error parsing XML file: " ++ msg])
  | .ok root =>
    let p := parseTestcases (findall "testcase" root)
    (p.1, if p.2 then ["Error parsing XML file: expected string or bytes-like object"] else [])

/-! ### `create_junit_xml`

The builder makes a `testsuites` root, then walks the results: the first
result of each architecture creates a `testsuite` child (so suites appear
in first-seen order), and every result appends a `testcase` to its
architecture's suite (so cases stay in input order).  The `ElementTree`
mutation is modelled by folding over an association list from suite name to
case list, which records exactly the tree the script builds. -/

/-- The element appended for one result: `ET.SubElement(suite, 'testcase',
name=..., module=..., status=...)` plus the status-dependent child. -/
def renderTestcase (r : TestResult) : Element :=
  .mk "testcase"
    [("name", r.name), ("module", r.group), ("status", r.status)]
    (if r.status == "failed" then [.mk "failure" [("message", "Test failed")] []]
     else if r.status == "skipped" then [.mk "skipped" [] []]
     else [])

/-- Append one rendered case to its suite, creating the suite at the end of
the list on first occurrence — the order `ET.SubElement` produces. -/
def insertCase : List (String × List Element) → String → Element → List (String × List Element)
  | [], arch, tc => [(arch, [tc])]
  | (a, cs) :: rest, arch, tc =>
    if a == arch then (a, cs ++ [tc]) :: rest
    else (a, cs) :: insertCase rest arch tc

/-- The grouping loop of `create_junit_xml`: suite name paired with its
ordered `testcase` children, suites in first-seen order. -/
def buildSuites (test_results : List TestResult) : List (String × List Element) :=
  test_results.foldl (fun suites r => insertCase suites r.group (renderTestcase r)) []

/-- The finished tree rooted at `testsuites`. -/
def create_junit_tree (test_results : List TestResult) : Element :=
  .mk "testsuites" []
    ((buildSuites test_results).map (fun s => .mk "testsuite" [("name", s.1)] s.2))

/-! ### Serialisation (`tree.write(file, encoding='utf-8', xml_declaration=True)`) -/

/-- `xml.etree.ElementTree`'s attribute escaping: the sequential `replace`
calls, `&` first, are equivalent to this character-wise map because no
replacement text contains a character escaped later. -/
def escape_attrib (s : String) : String :=
  String.join (s.data.map (fun c =>
    if c == '&' then "&amp;"
    else if c == '<' then "&lt;"
    else if c == '>' then "&gt;"
    else if c == '"' then "&quot;"
    else if c == '\r' then "&#13;"
    else if c == '\n' then "&#10;"
    else if c == '\t' then "&#09;"
    else String.singleton c))

def serializeAttrs (attrs : List (String × String)) : String :=
  String.join (attrs.map (fun p => " " ++ p.1 ++ "=\"" ++ escape_attrib p.2 ++ "\""))

mutual
/-- `ElementTree._serialize_xml` for text-free elements: short form
`<tag attrs />` when childless, otherwise open tag, children, close tag. -/
def serializeElem : Element → String
  | .mk tag attrs children =>
    match children with
    | [] => "<" ++ tag ++ serializeAttrs attrs ++ " />"
    | c :: cs =>
      "<" ++ tag ++ serializeAttrs attrs ++ ">"
        ++ serializeList (c :: cs) ++ "</" ++ tag ++ ">"

def serializeList : List Element → String
  | [] => ""
  | e :: es => serializeElem e ++ serializeList es
end

/-- The bytes `tree.write(file, encoding='utf-8', xml_declaration=True)`
produces: declaration line then the root element, no trailing newline. -/
def writeDocument (root : Element) : String :=
  "<?xml version='1.0' encoding='utf-8'?>\n" ++ serializeElem root

/-- Whether `open(output_file_path, 'wb')` / `tree.write` succeeds; the
string is the exception message on failure. -/
inductive WriteOutcome where
  | ok
  | failed (msg : String)

/-- `create_junit_xml(test_results, output_file_path)`: the bytes written
(`none` when the write raised) and the lines printed.  The `try` block
catches the write exception, prints, and returns normally. -/
def create_junit_xml (test_results : List TestResult) (w : WriteOutcome) :
    Option String × List String :=
  let content := writeDocument (create_junit_tree test_results)
  match w with
  | .ok => (some content, [])
  | .failed msg => (none, ["Error writing JUnit XML file: " ++ msg])

/-! ### The `__main__` block -/

/-- Observable outcome of one run: the process exit status, the lines
printed to stdout in order, and the bytes written to the output file
(`none` when nothing was written). -/
structure MainResult where
  exitCode : Nat
  stdout : List String
  written : Option String

/-- The `__main__` block.  `argv` is `sys.argv` (script name included);
`input` is what opening/parsing the input path yields and `w` whether the
output file can be written.  After the argument-count check the script
never exits with a nonzero status: both helpers swallow their exceptions,
so the confirmation line is always printed. -/
def main_run (argv : List String) (input : ParseOutcome) (w : WriteOutcome) : MainResult :=
  match argv with
  | [_, _, output_file_path] =>
    let pr := parse_simulation_results input
    let cr := create_junit_xml pr.1 w
    { exitCode := 0
      stdout := pr.2 ++ cr.2 ++ ["JUnit XML report created at " ++ output_file_path]
      written := cr.1 }
  | _ =>
    { exitCode := 1
      stdout := ["Usage: python convert_to_junit_xml.py <simulation_results_xml_path> <output_file_path>"]
      written := none }

/-! ### Concrete inputs used by counterexamples and witnesses -/

def exTcNamed1 : Element := .mk "testcase" [("name", "n1"), ("status", "PASSED")] []

def exTcNameless : Element := .mk "testcase" [("status", "PASSED")] []

def exTcNamed3 : Element := .mk "testcase" [("name", "n3"), ("status", "PASSED")] []

/-- A document whose only `testcase` sits below a `testsuite` child, i.e.
it is not a direct child of the root. -/
def exNestedRoot : Element :=
  .mk "testsuites" []
    [.mk "testsuite" [] [.mk "testcase" [("name", "x OF a IS y"), ("status", "PASSED")] []]]

/-- A document with a non-`testsuites` root tag and two named `testcase`
direct children. -/
def exOddRoot : Element := .mk "totally_custom_root" [] [exTcNamed1, exTcNamed3]

/-- A flat document whose second `testcase` has no `name` attribute. -/
def exRootMissingName : Element := .mk "results" [] [exTcNamed1, exTcNameless, exTcNamed3]

/-! ### Helper lemmas about the extraction loop -/

lemma processTestcase_eq_none (e : Element) (h : e.get "name" = none) :
    processTestcase e = none := by
  simp [processTestcase, h]

lemma processTestcase_isSome (e : Element) (h : (e.get "name").isSome) :
    (processTestcase e).isSome := by
  obtain ⟨nm, hnm⟩ := Option.isSome_iff_exists.mp h
  simp [processTestcase, hnm]

/-- A run of the loop in which every element carries a `name`: no exception,
one result per element, in order. -/
lemma parseTestcases_all_named (l : List Element) (h : ∀ x ∈ l, (x.get "name").isSome) :
    parseTestcases l = (l.filterMap processTestcase, false) ∧
    (l.filterMap processTestcase).length = l.length := by
  induction l with
  | nil => simp [parseTestcases]
  | cons e es ih =>
    obtain ⟨r, hr⟩ := Option.isSome_iff_exists.mp
      (processTestcase_isSome e (h e (by simp)))
    obtain ⟨ih1, ih2⟩ := ih (fun x hx => h x (by simp [hx]))
    refine ⟨?_, ?_⟩
    · simp [parseTestcases, hr, ih1, List.filterMap_cons]
    · simp [List.filterMap_cons, hr, ih2]

/-- A run of the loop that hits a nameless element after a fully named
prefix: the exception flag is set and only the prefix's results survive. -/
lemma parseTestcases_prefix_of_failure (pre : List Element) (e : Element) (post : List Element)
    (hpre : ∀ x ∈ pre, (x.get "name").isSome) (he : processTestcase e = none) :
    parseTestcases (pre ++ e :: post) = (pre.filterMap processTestcase, true) := by
  induction pre with
  | nil => simp [parseTestcases, he]
  | cons p ps ih =>
    obtain ⟨r, hr⟩ := Option.isSome_iff_exists.mp
      (processTestcase_isSome p (hpre p (by simp)))
    have ih1 := ih (fun x hx => hpre x (by simp [hx]))
    simp [parseTestcases, hr, ih1, List.filterMap_cons]

/-! ### The pattern `OF\s+(\w+)\s+IS`, stated declaratively

`OFISDecomp cs ident` says the character list `cs` contains an occurrence
of the pattern whose captured group is `ident`.  The lemmas relate the
matcher `searchOFIS` to this declarative reading in both directions. -/

def OFISDecomp (cs ident : List Char) : Prop :=
  ∃ pre w1 w2 post o f i s,
    cs = pre ++ o :: f :: (w1 ++ ident ++ w2 ++ i :: s :: post) ∧
    (o = 'O' ∨ o = 'o') ∧ (f = 'F' ∨ f = 'f') ∧
    w1 ≠ [] ∧ (∀ c ∈ w1, isSpaceChar c) ∧
    ident ≠ [] ∧ (∀ c ∈ ident, isWordChar c) ∧
    w2 ≠ [] ∧ (∀ c ∈ w2, isSpaceChar c) ∧
    (i = 'I' ∨ i = 'i') ∧ (s = 'S' ∨ s = 's')

lemma takeWhile_append_all {p : Char → Bool} (w r : List Char) (hw : ∀ c ∈ w, p c) :
    (w ++ r).takeWhile p = w ++ r.takeWhile p ∧ (w ++ r).dropWhile p = r.dropWhile p := by
  induction w with
  | nil => simp
  | cons c cs ih =>
    have hc : p c := hw c (by simp)
    obtain ⟨ih1, ih2⟩ := ih (fun x hx => hw x (by simp [hx]))
    simp [List.takeWhile_cons, List.dropWhile_cons, hc, ih1, ih2]

lemma takeWhile_head_false {p : Char → Bool} (c : Char) (r : List Char) (hc : p c = false) :
    (c :: r).takeWhile p = [] ∧ (c :: r).dropWhile p = c :: r := by
  simp [List.takeWhile_cons, List.dropWhile_cons, hc]

lemma space_not_word (c : Char) (h : isSpaceChar c = true) : isWordChar c = false := by
  simp only [isSpaceChar, Bool.or_eq_true, beq_iff_eq] at h
  rcases h with ((((rfl | rfl) | rfl) | rfl) | rfl) | rfl <;> decide

lemma word_not_space (c : Char) (h : isWordChar c = true) : isSpaceChar c = false := by
  cases hs : isSpaceChar c
  · rfl
  · rw [space_not_word c hs] at h
    exact absurd h (by simp)

/-- Soundness of the matcher at one position: a successful `matchAt` run
exhibits an occurrence of the pattern starting at the head. -/
lemma matchAt_sound (cs ident : List Char) (h : matchAt cs = some ident) :
    ∃ w1 w2 post o f i s,
      cs = o :: f :: (w1 ++ ident ++ w2 ++ i :: s :: post) ∧
      (o = 'O' ∨ o = 'o') ∧ (f = 'F' ∨ f = 'f') ∧
      w1 ≠ [] ∧ (∀ c ∈ w1, isSpaceChar c) ∧
      ident ≠ [] ∧ (∀ c ∈ ident, isWordChar c) ∧
      w2 ≠ [] ∧ (∀ c ∈ w2, isSpaceChar c) ∧
      (i = 'I' ∨ i = 'i') ∧ (s = 'S' ∨ s = 's') := by
  match cs with
  | [] => simp [matchAt] at h
  | [o] => simp [matchAt] at h
  | o :: f :: rest =>
    rw [matchAt] at h
    by_cases hof : ((o == 'O' || o == 'o') && (f == 'F' || f == 'f')) = true
    swap
    · rw [if_neg hof] at h; exact absurd h (by simp)
    rw [if_pos hof] at h
    by_cases hw1 : (rest.takeWhile isSpaceChar).isEmpty = true
    · rw [if_pos hw1] at h; exact absurd h (by simp)
    rw [if_neg hw1] at h
    by_cases hid : ((rest.dropWhile isSpaceChar).takeWhile isWordChar).isEmpty = true
    · rw [if_pos hid] at h; exact absurd h (by simp)
    rw [if_neg hid] at h
    by_cases hw2 : (((rest.dropWhile isSpaceChar).dropWhile isWordChar).takeWhile
        isSpaceChar).isEmpty = true
    · rw [if_pos hw2] at h; exact absurd h (by simp)
    rw [if_neg hw2] at h
    match hr3 : ((rest.dropWhile isSpaceChar).dropWhile isWordChar).dropWhile isSpaceChar with
    | [] => rw [hr3] at h; simp at h
    | [i] => rw [hr3] at h; simp at h
    | i :: s :: post =>
      rw [hr3] at h
      dsimp only at h
      by_cases his : ((i == 'I' || i == 'i') && (s == 'S' || s == 's')) = true
      swap
      · rw [if_neg his] at h; exact absurd h (by simp)
      rw [if_pos his] at h
      have hID : (rest.dropWhile isSpaceChar).takeWhile isWordChar = ident :=
        Option.some.inj h
      obtain ⟨ho, hf⟩ := Bool.and_eq_true_iff.mp hof
      obtain ⟨hi, hs⟩ := Bool.and_eq_true_iff.mp his
      refine ⟨rest.takeWhile isSpaceChar,
        ((rest.dropWhile isSpaceChar).dropWhile isWordChar).takeWhile isSpaceChar,
        post, o, f, i, s, ?_, ?_, ?_, ?_, ?_, ?_, ?_, ?_, ?_, ?_, ?_⟩
      · have e1 : rest.takeWhile isSpaceChar ++ rest.dropWhile isSpaceChar = rest :=
          List.takeWhile_append_dropWhile _ _
        have e2 : ident ++ (rest.dropWhile isSpaceChar).dropWhile isWordChar =
            rest.dropWhile isSpaceChar := by
          rw [← hID]; exact List.takeWhile_append_dropWhile _ _
        have e3 : (((rest.dropWhile isSpaceChar).dropWhile isWordChar).takeWhile
              isSpaceChar) ++ (i :: s :: post) =
            (rest.dropWhile isSpaceChar).dropWhile isWordChar := by
          rw [← hr3]; exact List.takeWhile_append_dropWhile _ _
        simp only [List.cons.injEq, true_and]
        rw [List.append_assoc, List.append_assoc, e3, e2, e1]
      · rcases Bool.or_eq_true_iff.mp ho with h | h <;>
          [left; right] <;> exact beq_iff_eq.mp h
      · rcases Bool.or_eq_true_iff.mp hf with h | h <;>
          [left; right] <;> exact beq_iff_eq.mp h
      · intro hnil; rw [hnil] at hw1; exact hw1 rfl
      · intro c hc; exact List.mem_takeWhile_imp hc
      · intro hnil; rw [hID, hnil] at hid; exact hid rfl
      · intro c hc; rw [← hID] at hc; exact List.mem_takeWhile_imp hc
      · intro hnil; rw [hnil] at hw2; exact hw2 rfl
      · intro c hc; exact List.mem_takeWhile_imp hc
      · rcases Bool.or_eq_true_iff.mp hi with h | h <;>
          [left; right] <;> exact beq_iff_eq.mp h
      · rcases Bool.or_eq_true_iff.mp hs with h | h <;>
          [left; right] <;> exact beq_iff_eq.mp h

/-- Completeness of the matcher at one position: at the start of an
occurrence, `matchAt` succeeds and captures exactly its identifier (the
character classes of the pattern are pairwise disjoint, so the greedy
scan cannot overshoot). -/
lemma matchAt_complete (w1 ident w2 post : List Char) (o f i s : Char)
    (ho : o = 'O' ∨ o = 'o') (hf : f = 'F' ∨ f = 'f')
    (hw1 : w1 ≠ []) (hw1s : ∀ c ∈ w1, isSpaceChar c)
    (hid : ident ≠ []) (hidw : ∀ c ∈ ident, isWordChar c)
    (hw2 : w2 ≠ []) (hw2s : ∀ c ∈ w2, isSpaceChar c)
    (hi : i = 'I' ∨ i = 'i') (hs : s = 'S' ∨ s = 's') :
    matchAt (o :: f :: (w1 ++ ident ++ w2 ++ i :: s :: post)) = some ident := by
  have hof : ((o == 'O' || o == 'o') && (f == 'F' || f == 'f')) = true := by
    rcases ho with rfl | rfl <;> rcases hf with rfl | rfl <;> decide
  have his : ((i == 'I' || i == 'i') && (s == 'S' || s == 's')) = true := by
    rcases hi with rfl | rfl <;> rcases hs with rfl | rfl <;> decide
  have t1 : (w1 ++ (ident ++ (w2 ++ i :: s :: post))).takeWhile isSpaceChar = w1 ∧
      (w1 ++ (ident ++ (w2 ++ i :: s :: post))).dropWhile isSpaceChar =
        ident ++ (w2 ++ i :: s :: post) := by
    obtain ⟨h1, h2⟩ := takeWhile_append_all (p := isSpaceChar)
      w1 (ident ++ (w2 ++ i :: s :: post)) hw1s
    cases ident with
    | nil => exact absurd rfl hid
    | cons c0 id0 =>
      have hc : isSpaceChar c0 = false := word_not_space c0 (hidw c0 (by simp))
      constructor
      · rw [h1]; simp [List.takeWhile_cons, hc]
      · rw [h2]; simp [List.dropWhile_cons, hc]
  have t2 : (ident ++ (w2 ++ i :: s :: post)).takeWhile isWordChar = ident ∧
      (ident ++ (w2 ++ i :: s :: post)).dropWhile isWordChar = w2 ++ i :: s :: post := by
    obtain ⟨h1, h2⟩ := takeWhile_append_all (p := isWordChar)
      ident (w2 ++ i :: s :: post) hidw
    cases w2 with
    | nil => exact absurd rfl hw2
    | cons d0 v0 =>
      have hd : isWordChar d0 = false := space_not_word d0 (hw2s d0 (by simp))
      constructor
      · rw [h1]; simp [List.takeWhile_cons, hd]
      · rw [h2]; simp [List.dropWhile_cons, hd]
  have t3 : (w2 ++ i :: s :: post).takeWhile isSpaceChar = w2 ∧
      (w2 ++ i :: s :: post).dropWhile isSpaceChar = i :: s :: post := by
    obtain ⟨h1, h2⟩ := takeWhile_append_all (p := isSpaceChar) w2 (i :: s :: post) hw2s
    have hi0 : isSpaceChar i = false := by rcases hi with rfl | rfl <;> decide
    constructor
    · rw [h1]; simp [List.takeWhile_cons, hi0]
    · rw [h2]; simp [List.dropWhile_cons, hi0]
  rw [matchAt, if_pos hof]
  simp only [List.append_assoc]
  rw [t1.1, t1.2, t2.1, t2.2, t3.1, t3.2]
  rw [if_neg (by simpa using hw1), if_neg (by simpa using hid), if_neg (by simpa using hw2)]
  dsimp only
  rw [if_pos his]

lemma searchOFIS_cons (c : Char) (rest : List Char) :
    searchOFIS (c :: rest) =
      match matchAt (c :: rest) with
      | some ident => some ident
      | none => searchOFIS rest := rfl

/-- A successful search exhibits an occurrence of the pattern. -/
lemma searchOFIS_sound (cs ident : List Char) (h : searchOFIS cs = some ident) :
    OFISDecomp cs ident := by
  induction cs with
  | nil => simp [searchOFIS] at h
  | cons c rest ih =>
    rw [searchOFIS_cons] at h
    cases hm : matchAt (c :: rest) with
    | some id0 =>
      rw [hm] at h
      obtain rfl : id0 = ident := Option.some.inj h
      obtain ⟨w1, w2, post, o, f, i, s, hcs, hrest⟩ := matchAt_sound _ _ hm
      exact ⟨[], w1, w2, post, o, f, i, s, by rw [hcs]; rfl, hrest⟩
    | none =>
      rw [hm] at h
      obtain ⟨pre, w1, w2, post, o, f, i, s, hcs, hrest⟩ := ih h
      exact ⟨c :: pre, w1, w2, post, o, f, i, s, by rw [hcs]; rfl, hrest⟩

/-- If the pattern occurs at all, the search succeeds (on the leftmost
occurrence, whose identifier again satisfies the pattern). -/
lemma searchOFIS_complete (cs ident : List Char) (h : OFISDecomp cs ident) :
    ∃ found, searchOFIS cs = some found ∧ OFISDecomp cs found := by
  obtain ⟨pre, w1, w2, post, o, f, i, s, hcs, ho, hf, hw1, hw1s, hid, hidw, hw2, hw2s, hi, hs⟩ := h
  subst hcs
  induction pre with
  | nil =>
    have hm := matchAt_complete w1 ident w2 post o f i s ho hf hw1 hw1s hid hidw hw2 hw2s hi hs
    refine ⟨ident, ?_, [], w1, w2, post, o, f, i, s, rfl, ho, hf, hw1, hw1s, hid, hidw,
      hw2, hw2s, hi, hs⟩
    simp only [List.nil_append]
    rw [searchOFIS_cons, hm]
  | cons c pre' ih =>
    obtain ⟨found, hfound, hdec⟩ := ih
    rw [List.cons_append]
    cases hm : matchAt (c :: (pre' ++ o :: f :: (w1 ++ ident ++ w2 ++ i :: s :: post))) with
    | some id0 =>
      refine ⟨id0, ?_, ?_⟩
      · rw [searchOFIS_cons, hm]
      · obtain ⟨u1, u2, upost, uo, uf, ui, us, hcs2, hrest⟩ := matchAt_sound _ _ hm
        exact ⟨[], u1, u2, upost, uo, uf, ui, us, by rw [hcs2]; rfl, hrest⟩
    | none =>
      refine ⟨found, ?_, ?_⟩
      · rw [searchOFIS_cons, hm]; exact hfound
      · obtain ⟨qpre, q1, q2, qpost, qo, qf, qi, qs, hcs2, hrest⟩ := hdec
        exact ⟨c :: qpre, q1, q2, qpost, qo, qf, qi, qs, by rw [hcs2]; rfl, hrest⟩

/-! ### Helper lemmas tying results to `extract_architecture` -/

lemma processTestcase_group (e : Element) (r : TestResult) (h : processTestcase e = some r) :
    r.group = extract_architecture r.name := by
  unfold processTestcase at h
  cases hn : e.get "name" with
  | none => rw [hn] at h; simp at h
  | some nm =>
    rw [hn] at h
    have h2 := Option.some.inj h
    subst h2
    rfl

lemma parseTestcases_mem (l : List Element) (r : TestResult) (h : r ∈ (parseTestcases l).1) :
    ∃ e ∈ l, processTestcase e = some r := by
  induction l with
  | nil => simp [parseTestcases] at h
  | cons e es ih =>
    cases hp : processTestcase e with
    | none => simp [parseTestcases, hp] at h
    | some r0 =>
      simp only [parseTestcases, hp] at h
      rcases List.mem_cons.mp h with rfl | h2
      · exact ⟨e, by simp, hp⟩
      · obtain ⟨e2, he2, hp2⟩ := ih h2
        exact ⟨e2, by simp [he2], hp2⟩

/-- A document used for the architecture-inference witness. -/
def exArchRoot : Element :=
  .mk "testsuites" []
    [.mk "testcase" [("name", "ENTITY e OF ram_ctrl IS"), ("status", "PASSED")] []]

/-! ### Claim theorems (first batch) -/

/-- **C3.** The group assigned in XML mode is a pure function of the test
name: it equals `extract_architecture name` for every extracted result
(the `module` attribute is never consulted); a successful search always
corresponds to an occurrence of the case-insensitive pattern
`OF <identifier> IS`; whenever the pattern occurs, the extracted group is
the identifier of an occurrence; and whenever it does not occur the group
is the sentinel `"unknown"`. -/
theorem architecture_grouping (root : Element) :
    (∀ r, r ∈ (parse_simulation_results (.ok root)).1 →
      r.group = extract_architecture r.name) ∧
    (∀ (nm : String) (ident : List Char), searchOFIS nm.data = some ident →
      OFISDecomp nm.data ident) ∧
    (∀ (nm : String) (ident : List Char), OFISDecomp nm.data ident →
      ∃ found, searchOFIS nm.data = some found ∧ OFISDecomp nm.data found ∧
        extract_architecture nm = ⟨found⟩) ∧
    (∀ nm : String, (¬ ∃ ident, OFISDecomp nm.data ident) →
      extract_architecture nm = "unknown") := by
  refine ⟨?_, ?_, ?_, ?_⟩
  · intro r hr
    obtain ⟨e, _, hp⟩ := parseTestcases_mem _ r hr
    exact processTestcase_group e r hp
  · exact fun nm ident h => searchOFIS_sound _ _ h
  · intro nm ident h
    obtain ⟨found, hs, hd⟩ := searchOFIS_complete _ _ h
    refine ⟨found, hs, hd, ?_⟩
    unfold extract_architecture
    rw [hs]
  · intro nm hno
    unfold extract_architecture
    cases hs : searchOFIS nm.data with
    | none => rfl
    | some ident => exact absurd ⟨ident, searchOFIS_sound _ _ hs⟩ hno

/-- **C3, witness**: the case with name `"ENTITY e OF ram_ctrl IS"` is
grouped under `ram_ctrl`, and a patternless name falls back to
`"unknown"`. -/
theorem architecture_grouping_witness :
    TestResult.group (("ENTITY e OF ram_ctrl IS", "ram_ctrl", "passed") : TestResult) =
      extract_architecture "ENTITY e OF ram_ctrl IS" ∧
    extract_architecture "ENTITY e OF ram_ctrl IS" = "ram_ctrl" ∧
    extract_architecture "plain name" = "unknown" := by
  refine ⟨?_, rfl, rfl⟩
  exact (architecture_grouping exArchRoot).1
    (("ENTITY e OF ram_ctrl IS", "ram_ctrl", "passed") : TestResult)
    (List.mem_singleton.mpr rfl)

/-- **C1, counterexample.** A well-formed document whose single `testcase`
is nested one level below the root yields zero extracted results, although
one `testcase` element occurs in the tree: the code reads only the root's
direct children, so extraction is not "per `testcase` element found
anywhere in the tree". -/
theorem nested_testcase_counterexample :
    (parse_simulation_results (.ok exNestedRoot)).1.length = 0 ∧
    countTag "testcase" exNestedRoot = 1 :=
  ⟨rfl, rfl⟩

/-- **C1, amended.** Extraction tolerates any root tag (the statement
constrains `root` in no way) and produces exactly one canonical result per
`testcase` element among the root's *direct children*, provided each such
element carries a `name` attribute; no parse error is logged. -/
theorem any_root_direct_children_extraction (root : Element)
    (h : ∀ x ∈ findall "testcase" root, (x.get "name").isSome) :
    (parse_simulation_results (.ok root)).1 =
      (findall "testcase" root).filterMap processTestcase ∧
    (parse_simulation_results (.ok root)).1.length = (findall "testcase" root).length ∧
    (parse_simulation_results (.ok root)).2 = [] := by
  obtain ⟨h1, h2⟩ := parseTestcases_all_named (findall "testcase" root) h
  refine ⟨?_, ?_, ?_⟩ <;> simp [parse_simulation_results, h1, h2]

/-- **C1, witness for the amended theorem** at a root whose tag is neither
`testsuites` nor anything standard: both direct `testcase` children are
extracted. -/
theorem any_root_direct_children_extraction_witness :
    (parse_simulation_results (.ok exOddRoot)).1 =
      [("n1", "unknown", "passed"), ("n3", "unknown", "passed")] ∧
    (parse_simulation_results (.ok exOddRoot)).1.length = 2 ∧
    (parse_simulation_results (.ok exOddRoot)).2 = [] := by
  have h := any_root_direct_children_extraction exOddRoot (by
    intro x hx
    have hfind : findall "testcase" exOddRoot = [exTcNamed1, exTcNamed3] := rfl
    rw [hfind] at hx
    simp only [List.mem_cons, List.mem_singleton, List.not_mem_nil, or_false] at hx
    rcases hx with rfl | rfl <;> rfl)
  exact ⟨h.1.trans (by rfl), h.2.1.trans (by rfl), h.2.2⟩

/-- **C2.** The canonical status of a named `testcase` element is decided by
a case-sensitive exact match on its `status` attribute: `"PASSED"` gives
`passed`, `"SKIPPED"` gives `skipped`, any other value — and a missing
attribute — gives `failed`. -/
theorem status_attribute_mapping (e : Element) (nm : String) (hn : e.get "name" = some nm) :
    (e.get "status" = some "PASSED" →
      processTestcase e = some (nm, extract_architecture nm, "passed")) ∧
    (e.get "status" = some "SKIPPED" →
      processTestcase e = some (nm, extract_architecture nm, "skipped")) ∧
    (∀ v, e.get "status" = some v → v ≠ "PASSED" → v ≠ "SKIPPED" →
      processTestcase e = some (nm, extract_architecture nm, "failed")) ∧
    (e.get "status" = none →
      processTestcase e = some (nm, extract_architecture nm, "failed")) := by
  refine ⟨fun h => ?_, fun h => ?_, fun v h hP hS => ?_, fun h => ?_⟩ <;>
    simp_all [processTestcase, hn]

/-- **C2, witness**: a lowercase `"Passed"` is not an exact match and maps
to `failed`; the element's group is inferred from its patternless name. -/
theorem status_attribute_mapping_witness :
    processTestcase (Element.mk "testcase" [("name", "n"), ("status", "Passed")] []) =
      some ("n", "unknown", "failed") :=
  (status_attribute_mapping (Element.mk "testcase" [("name", "n"), ("status", "Passed")] [])
    "n" rfl).2.2.1 "Passed" rfl (by decide) (by decide)

/-- **C5.** Unparseable XML does not abort the conversion: the parse error
is printed, the result sequence falls back to empty, and a valid report
with an empty `testsuites` root is still written, after which the success
line is printed. -/
theorem malformed_input_recovery (msg prog inp outp : String) :
    parse_simulation_results (.malformed msg) = ([], ["Error parsing XML file: " ++ msg]) ∧
    main_run [prog, inp, outp] (.malformed msg) .ok =
      { exitCode := 0
        stdout := ["Error parsing XML file: " ++ msg, "JUnit XML report created at " ++ outp]
        written := some "<?xml version='1.0' encoding='utf-8'?>\n<testsuites />" } :=
  ⟨rfl, rfl⟩

/-- **C6, counterexample.** With a missing input path the process exits with
status 0 and prints the success confirmation (after the error line): the
`FileNotFoundError` is swallowed by the blanket `except` in
`parse_simulation_results`, so the run is not fatal as the claim demands. -/
theorem input_not_found_exit_counterexample :
    (main_run ["convert_to_junit_xml.py", "missing.xml", "out.xml"]
      (.notFound "No such file or directory") .ok).exitCode = 0 ∧
    (main_run ["convert_to_junit_xml.py", "missing.xml", "out.xml"]
      (.notFound "No such file or directory") .ok).stdout =
      ["Error parsing XML file: No such file or directory",
       "JUnit XML report created at out.xml"] ∧
    (main_run ["convert_to_junit_xml.py", "missing.xml", "out.xml"]
      (.notFound "No such file or directory") .ok).written =
      some "<?xml version='1.0' encoding='utf-8'?>\n<testsuites />" :=
  ⟨rfl, rfl, rfl⟩

/-- **C6, amended.** A missing input path is handled exactly like malformed
XML: the error is printed, extraction returns the empty sequence, an empty
but valid report is written, and the process exits 0 with the success
message. -/
theorem input_not_found_recovery (msg prog inp outp : String) :
    parse_simulation_results (.notFound msg) = ([], ["Error parsing XML file: " ++ msg]) ∧
    main_run [prog, inp, outp] (.notFound msg) .ok =
      { exitCode := 0
        stdout := ["Error parsing XML file: " ++ msg, "JUnit XML report created at " ++ outp]
        written := some "<?xml version='1.0' encoding='utf-8'?>\n<testsuites />" } :=
  ⟨rfl, rfl⟩

/-- **C7, counterexample.** When the output cannot be written the error is
printed, but the process still exits 0 and still prints the success
confirmation: `create_junit_xml` swallows the write exception, so the run
is not fatal as the claim demands. -/
theorem write_error_exit_counterexample :
    (main_run ["convert_to_junit_xml.py", "in.xml", "out.xml"]
      (.ok exOddRoot) (.failed "Permission denied")).exitCode = 0 ∧
    (main_run ["convert_to_junit_xml.py", "in.xml", "out.xml"]
      (.ok exOddRoot) (.failed "Permission denied")).stdout =
      ["Error writing JUnit XML file: Permission denied",
       "JUnit XML report created at out.xml"] ∧
    (main_run ["convert_to_junit_xml.py", "in.xml", "out.xml"]
      (.ok exOddRoot) (.failed "Permission denied")).written = none :=
  ⟨rfl, rfl, rfl⟩

/-- **C7, amended.** A write failure is caught inside `create_junit_xml`:
the error is printed and nothing is written, but the process exits 0 and
the success confirmation is printed anyway. -/
theorem write_error_recovery (input : ParseOutcome) (msg prog inp outp : String) :
    create_junit_xml (parse_simulation_results input).1 (.failed msg) =
      (none, ["Error writing JUnit XML file: " ++ msg]) ∧
    (main_run [prog, inp, outp] input (.failed msg)).exitCode = 0 ∧
    (main_run [prog, inp, outp] input (.failed msg)).written = none ∧
    (main_run [prog, inp, outp] input (.failed msg)).stdout =
      (parse_simulation_results input).2 ++
        ["Error writing JUnit XML file: " ++ msg,
         "JUnit XML report created at " ++ outp] := by
  refine ⟨rfl, rfl, rfl, ?_⟩
  cases input <;> simp [main_run, parse_simulation_results, create_junit_xml]

/-- **C8.** Children of a rendered `testcase`: a `failed` result gets a
single `failure` child carrying a `message` attribute, a `skipped` result
gets a single empty `skipped` child, and a `passed` result gets no child at
all (the script's result triples carry no detail text, so the spec's
detail-dependent clauses are vacuous and in particular no `system-out`
element is ever emitted). -/
theorem rendered_status_children (r : TestResult) :
    (r.status = "failed" →
      (renderTestcase r).children = [Element.mk "failure" [("message", "Test failed")] []] ∧
      (Element.mk "failure" [("message", "Test failed")] []).get "message" =
        some "Test failed") ∧
    (r.status = "skipped" →
      (renderTestcase r).children = [Element.mk "skipped" [] []]) ∧
    (r.status = "passed" → (renderTestcase r).children = []) := by
  refine ⟨fun h => ⟨?_, rfl⟩, fun h => ?_, fun h => ?_⟩ <;>
    simp [renderTestcase, h, Element.children]

/-- **C8, witness** at one concrete result of each status. -/
theorem rendered_status_children_witness :
    (renderTestcase ("a", "g", "failed")).children =
      [Element.mk "failure" [("message", "Test failed")] []] ∧
    (renderTestcase ("b", "g", "skipped")).children = [Element.mk "skipped" [] []] ∧
    (renderTestcase ("c", "g", "passed")).children = [] :=
  ⟨((rendered_status_children ("a", "g", "failed")).1 rfl).1,
   (rendered_status_children ("b", "g", "skipped")).2.1 rfl,
   (rendered_status_children ("c", "g", "passed")).2.2 rfl⟩

/-- **C9.** The pipeline is a pure function of the input artifact, the
write outcome and the argument vector: two runs on equal inputs produce
equal observable results — in particular byte-identical output files.
Nothing in the pipeline consults a clock, randomness, or hash order. -/
theorem conversion_deterministic (a1 a2 : List String) (i1 i2 : ParseOutcome)
    (w1 w2 : WriteOutcome) (ha : a1 = a2) (hi : i1 = i2) (hw : w1 = w2) :
    main_run a1 i1 w1 = main_run a2 i2 w2 := by
  subst ha; subst hi; subst hw; rfl

/-- **C9, witness**: two runs on a concrete document agree, and the bytes
written are the concrete serialised report. -/
theorem conversion_deterministic_witness :
    main_run ["p", "in.xml", "out.xml"] (.ok exOddRoot) .ok =
      main_run ["p", "in.xml", "out.xml"] (.ok exOddRoot) .ok ∧
    (main_run ["p", "in.xml", "out.xml"] (.ok exOddRoot) .ok).written =
      some ("<?xml version='1.0' encoding='utf-8'?>\n<testsuites><testsuite name=\"unknown\">"
        ++ "<testcase name=\"n1\" module=\"unknown\" status=\"passed\" />"
        ++ "<testcase name=\"n3\" module=\"unknown\" status=\"passed\" />"
        ++ "</testsuite></testsuites>") :=
  ⟨conversion_deterministic _ _ _ _ _ _ rfl rfl rfl, rfl⟩

/-- **C10.** When the k-th direct-child `testcase` lacks a `name` attribute
(and the k-1 before it are named), the `TypeError` raised by the regex
search over `None` aborts the loop, is caught, and the partial result list
for the first k-1 elements is returned, along with the printed error. -/
theorem missing_name_partial_results (root : Element) (pre post : List Element) (e : Element)
    (hsplit : findall "testcase" root = pre ++ e :: post)
    (hpre : ∀ x ∈ pre, (x.get "name").isSome)
    (hname : e.get "name" = none) :
    parse_simulation_results (.ok root) =
      (pre.filterMap processTestcase,
        ["Error parsing XML file: expected string or bytes-like object"]) := by
  have he := processTestcase_eq_none e hname
  have h := parseTestcases_prefix_of_failure pre e post hpre he
  simp [parse_simulation_results, hsplit, h]

/-- **C10, witness**: of three `testcase` children the second is nameless;
exactly the first element's result is returned, with the error printed. -/
theorem missing_name_partial_results_witness :
    parse_simulation_results (.ok exRootMissingName) =
      ([("n1", "unknown", "passed")],
        ["Error parsing XML file: expected string or bytes-like object"]) := by
  have h := missing_name_partial_results exRootMissingName [exTcNamed1] [exTcNamed3]
    exTcNameless rfl (by
      intro x hx
      rw [List.mem_singleton] at hx
      rw [hx]; rfl) rfl
  exact h.trans (by rfl)

/-! ### Grouping machinery for the report builder -/

/-- First-seen order of the distinct elements of a list — the order in
which the `architectures` dictionary acquires keys. -/
def firstSeenAux : List String → List String → List String
  | [], _ => []
  | a :: rest, seen =>
    if a ∈ seen then firstSeenAux rest seen else a :: firstSeenAux rest (seen ++ [a])

def firstSeen (l : List String) : List String := firstSeenAux l []

lemma firstSeenAux_cons (a : String) (rest seen : List String) :
    firstSeenAux (a :: rest) seen =
      if a ∈ seen then firstSeenAux rest seen
      else a :: firstSeenAux rest (seen ++ [a]) := rfl

/-- The case list of the named suite; `none` when no suite has the name. -/
def lookupSuite (suites : List (String × List Element)) (a : String) :
    Option (List Element) :=
  (suites.find? (fun s => s.1 == a)).map (fun s => s.2)

lemma insertCase_names (suites : List (String × List Element)) (arch : String) (tc : Element) :
    (insertCase suites arch tc).map Prod.fst =
      if arch ∈ suites.map Prod.fst then suites.map Prod.fst
      else suites.map Prod.fst ++ [arch] := by
  induction suites with
  | nil => simp [insertCase]
  | cons p rest ih =>
    obtain ⟨a, cs⟩ := p
    by_cases h : a = arch
    · subst h
      simp [insertCase]
    · have h2 : arch ≠ a := fun hh => h hh.symm
      have hb : (a == arch) = false := beq_eq_false_iff_ne.mpr h
      by_cases hmem : arch ∈ rest.map Prod.fst <;>
        simp [insertCase, hb, ih, hmem, List.mem_cons, h2]

lemma lookupSuite_nil (a : String) : lookupSuite [] a = none := rfl

lemma lookupSuite_cons (b : String) (cs : List Element)
    (rest : List (String × List Element)) (a : String) :
    lookupSuite ((b, cs) :: rest) a = if b = a then some cs else lookupSuite rest a := by
  by_cases h : b = a
  · simp [lookupSuite, h]
  · simp [lookupSuite, h]

lemma insertCase_lookup (suites : List (String × List Element)) (arch : String) (tc : Element)
    (a : String) :
    lookupSuite (insertCase suites arch tc) a =
      if a = arch then some ((lookupSuite suites arch).getD [] ++ [tc])
      else lookupSuite suites a := by
  induction suites with
  | nil =>
    by_cases h : a = arch
    · subst h
      simp [insertCase, lookupSuite_cons, lookupSuite_nil]
    · have h2 : ¬arch = a := fun hh => h hh.symm
      simp [insertCase, lookupSuite_cons, lookupSuite_nil, h, h2]
  | cons p rest ih =>
    obtain ⟨b, cs⟩ := p
    by_cases hb : b = arch
    · subst hb
      by_cases h : a = b
      · subst h
        simp [insertCase, lookupSuite_cons]
      · have h2 : ¬b = a := fun hh => h hh.symm
        simp [insertCase, lookupSuite_cons, h, h2]
    · have hbb : (b == arch) = false := beq_eq_false_iff_ne.mpr hb
      by_cases h : a = b
      · subst h
        simp [insertCase, hbb, lookupSuite_cons, hb]
      · have h2 : ¬b = a := fun hh => h hh.symm
        simp [insertCase, hbb, lookupSuite_cons, hb, h2, ih]

lemma foldl_insert_names (rs : List TestResult) (suites : List (String × List Element)) :
    (rs.foldl (fun suites r => insertCase suites r.group (renderTestcase r)) suites).map
        Prod.fst =
      suites.map Prod.fst ++ firstSeenAux (rs.map TestResult.group) (suites.map Prod.fst) := by
  induction rs generalizing suites with
  | nil => simp [firstSeenAux]
  | cons r rest ih =>
    rw [List.foldl_cons, ih, insertCase_names, List.map_cons, firstSeenAux_cons]
    by_cases h : r.group ∈ suites.map Prod.fst
    · simp only [if_pos h]
    · simp only [if_neg h]
      simp [List.append_assoc]

lemma firstSeenAux_not_mem (l seen : List String) (a : String)
    (h : a ∈ firstSeenAux l seen) : a ∉ seen := by
  induction l generalizing seen with
  | nil => simp [firstSeenAux] at h
  | cons b rest ih =>
    rw [firstSeenAux_cons] at h
    by_cases hb : b ∈ seen
    · rw [if_pos hb] at h; exact ih seen h
    · rw [if_neg hb] at h
      rcases List.mem_cons.mp h with rfl | h2
      · exact hb
      · intro ha
        exact ih (seen ++ [b]) h2 (List.mem_append_left _ ha)

lemma firstSeenAux_nodup (l seen : List String) : (firstSeenAux l seen).Nodup := by
  induction l generalizing seen with
  | nil => simp [firstSeenAux]
  | cons b rest ih =>
    rw [firstSeenAux_cons]
    by_cases hb : b ∈ seen
    · rw [if_pos hb]; exact ih seen
    · rw [if_neg hb]
      refine List.nodup_cons.mpr ⟨?_, ih (seen ++ [b])⟩
      intro hmem
      exact firstSeenAux_not_mem rest (seen ++ [b]) b hmem
        (List.mem_append_right _ (by simp))

lemma foldl_insert_lookup (rs : List TestResult) (suites : List (String × List Element))
    (a : String) :
    lookupSuite (rs.foldl (fun suites r => insertCase suites r.group (renderTestcase r))
        suites) a =
      match lookupSuite suites a with
      | some cs => some (cs ++ (rs.filter (fun r => r.group == a)).map renderTestcase)
      | none =>
        if a ∈ rs.map TestResult.group
        then some ((rs.filter (fun r => r.group == a)).map renderTestcase)
        else none := by
  induction rs generalizing suites with
  | nil =>
    cases hl : lookupSuite suites a with
    | some cs => simp [hl]
    | none => simp [hl]
  | cons r rest ih =>
    rw [List.foldl_cons, ih, insertCase_lookup]
    by_cases hg : r.group = a
    · rw [if_pos hg.symm, ← hg]
      cases hl : lookupSuite suites r.group with
      | some cs => simp [hl, List.filter_cons, List.append_assoc]
      | none => simp [hl, List.filter_cons, List.mem_cons]
    · have hgb : (r.group == a) = false := beq_eq_false_iff_ne.mpr hg
      have hga : a ≠ r.group := fun hh => hg hh.symm
      rw [if_neg hga]
      cases hl : lookupSuite suites a with
      | some cs => simp [hl, List.filter_cons, hgb]
      | none => simp [hl, List.filter_cons, hgb, List.mem_cons, hga]

/-- Concrete results used by the grouping witness: two groups, interleaved. -/
def exResults : List TestResult :=
  [("t1", "g1", "passed"), ("t2", "g2", "failed"), ("t3", "g1", "skipped")]

/-- **C4.** The report tree has root `testsuites` whose children are one
`testsuite` element per suite; the suites carry the distinct group names in
first-seen order, each group exactly once; a group's suite holds exactly
the rendered cases of the results assigned to that group, in input order;
and its `testcase` count equals the number of results of that group. -/
theorem suite_grouping_structure (rs : List TestResult) :
    (create_junit_tree rs).tag = "testsuites" ∧
    (create_junit_tree rs).children =
      (buildSuites rs).map (fun s => Element.mk "testsuite" [("name", s.1)] s.2) ∧
    (buildSuites rs).map Prod.fst = firstSeen (rs.map TestResult.group) ∧
    ((buildSuites rs).map Prod.fst).Nodup ∧
    (∀ a, a ∈ rs.map TestResult.group →
      lookupSuite (buildSuites rs) a =
        some ((rs.filter (fun r => r.group == a)).map renderTestcase)) ∧
    (∀ a cs, lookupSuite (buildSuites rs) a = some cs →
      cs.length = rs.countP (fun r => r.group == a)) := by
  have hnames : (buildSuites rs).map Prod.fst = firstSeen (rs.map TestResult.group) := by
    unfold buildSuites firstSeen
    simpa using foldl_insert_names rs []
  have hlook : ∀ a, lookupSuite (buildSuites rs) a =
      if a ∈ rs.map TestResult.group
      then some ((rs.filter (fun r => r.group == a)).map renderTestcase)
      else none := by
    intro a
    unfold buildSuites
    rw [foldl_insert_lookup]
    simp [lookupSuite]
  refine ⟨rfl, rfl, hnames, ?_, ?_, ?_⟩
  · rw [hnames]; exact firstSeenAux_nodup _ _
  · intro a ha
    rw [hlook a, if_pos ha]
  · intro a cs hcs
    rw [hlook a] at hcs
    by_cases ha : a ∈ rs.map TestResult.group
    · rw [if_pos ha] at hcs
      have h2 := Option.some.inj hcs
      subst h2
      rw [List.length_map, List.countP_eq_length_filter]
    · rw [if_neg ha] at hcs
      exact absurd hcs (by simp)

/-- **C4, witness** on three results over two interleaved groups: suites
`g1`, `g2` in first-seen order, `g1` holding its two cases in input order,
with the matching count. -/
theorem suite_grouping_structure_witness :
    (buildSuites exResults).map Prod.fst = ["g1", "g2"] ∧
    lookupSuite (buildSuites exResults) "g1" =
      some [renderTestcase ("t1", "g1", "passed"), renderTestcase ("t3", "g1", "skipped")] ∧
    exResults.countP (fun r => r.group == "g1") = 2 := by
  have h5 := (suite_grouping_structure exResults).2.2.2.2.1 "g1"
    (List.mem_cons_self "g1" ["g2", "g1"])
  have h6 := (suite_grouping_structure exResults).2.2.2.2.2 "g1"
    ((exResults.filter (fun r => r.group == "g1")).map renderTestcase) h5
  exact ⟨(suite_grouping_structure exResults).2.2.1.trans (by rfl),
    h5.trans (by rfl), h6.symm.trans (by rfl)⟩

end ConvertToJunitXml
